import Mathlib

/-!
Shallow embedding of the Debug-AI error-context assembly pipeline
(backend/app/utils/git_fetcher.py, stack_trace_parser.py, prompt_builder.py,
and backend/app/celery/tasks.py), together with theorems settling the
specification claims about it.

Python strings are modelled as Lean `String` (with most computation on
`List Char`), Python ints as `Int` or `Nat` where the quantity is a count,
and fallible code as `Option` / `Except`.
-/

namespace DebugAI

/-! ## Definitions

Shallow embeddings of backend/app/utils/git_fetcher.py,
backend/app/utils/stack_trace_parser.py,
backend/app/utils/prompt_builder.py and backend/app/celery/tasks.py,
together with the Python string primitives they rely on and the
reference definitions written from the claims where a refinement is
proved. -/


/-- Python `str.strip()`: remove leading and trailing whitespace. -/
def pyStrip (cs : List Char) : List Char :=
  (((cs.dropWhile Char.isWhitespace).reverse).dropWhile Char.isWhitespace).reverse

/-- Python `str.split(sep)` for a single-character separator. -/
def splitOnChar (sep : Char) : List Char → List (List Char)
  | [] => [[]]
  | c :: rest =>
    let r := splitOnChar sep rest
    if c = sep then [] :: r
    else
      match r with
      | [] => [[c]]
      | l :: ls => (c :: l) :: ls

/-- Python `sep.join(parts)` for a single-character separator. -/
def joinWith (sep : Char) : List (List Char) → List Char
  | [] => []
  | [l] => l
  | l :: rest => l ++ sep :: joinWith sep rest

/-- Python `str.splitlines()` restricted to the `\n` terminator: the empty
string has no lines, a trailing `\n` does not open a new line. -/
def pySplitlines : List Char → List (List Char)
  | [] => []
  | c :: rest =>
    if c = '\n' then [] :: pySplitlines rest
    else
      match pySplitlines rest with
      | [] => [[c]]
      | l :: ls => (c :: l) :: ls

/-- Python `len(s.splitlines())`, the line count used throughout the repo. -/
def countLines (s : String) : Nat := (pySplitlines s.data).length

/-- Python exception classes relevant to `GitFetcher.fetch_file`:
`requests.exceptions.Timeout`, `requests.exceptions.RequestException`,
the `ValueError` raised for an unsupported provider, and any other
`Exception`. -/
inductive PyExc
  | timeout
  | requestExc
  | valueError
  | otherExc
deriving DecidableEq

/-- Embeds `GitFetcher.fetch_file`.  The network-facing helpers
`_fetch_from_github` / `_fetch_from_gitlab` are modelled by their outcome: a
`PyExc` when they raise, otherwise `some content` or `none` (file not found,
bad status, wrong content type, unparsable body, ...).  The dispatch on
`self.config.provider` and the `raise ValueError` for an unknown provider
sit inside the `try` block; the `except Timeout / RequestException /
Exception` clauses each `return None`. -/
def fetch_file (provider : String) (github_api gitlab_api : Except PyExc (Option String)) :
    Except PyExc (Option String) :=
  let body : Except PyExc (Option String) :=
    if provider = "github" then github_api
    else if provider = "gitlab" then gitlab_api
    else Except.error PyExc.valueError
  match body with
  | Except.ok v => Except.ok v
  | Except.error _ => Except.ok none

/-- The CodeBlock dict produced by `GitFetcher.fetch_file_with_context` and
consumed by `prompt_builder._limit_code_context`. -/
structure CodeBlock where
  file_path : String
  content : String
  start_line : Int
  end_line : Int
  target_line : Option Int := none
deriving DecidableEq

/-- Embeds the successful branch of `GitFetcher.fetch_file_with_context`
(the file was fetched and its full text is `content`).  Python list slicing
`lines[start_line - 1 : end_line]` is rendered as `drop`/`take`; both
indices are nonnegative in the regimes the theorems quantify over. -/
def fetch_file_with_context (file_path content : String) (line_number : Option Int)
    (context_lines : Int) : CodeBlock :=
  match line_number with
  | none =>
      { file_path := file_path, content := content, start_line := 1,
        end_line := (countLines content : Int) }
  | some line =>
      let lines := pySplitlines content.data
      let total_lines : Int := (lines.length : Int)
      let start_line : Int := max 1 (line - context_lines)
      let end_line : Int := min total_lines (line + context_lines)
      let relevant_lines := (lines.drop (start_line - 1).toNat).take (end_line - (start_line - 1)).toNat
      { file_path := file_path, content := String.mk (joinWith '\n' relevant_lines),
        start_line := start_line, end_line := end_line, target_line := some line }

/-- Embeds the loop of `prompt_builder._limit_code_context`: accumulate
blocks while the running total stays within the budget; on overflow include
a head-truncated copy when more than 10 lines remain, then stop. -/
def limitAux : List CodeBlock → Nat → Nat → List CodeBlock
  | [], _, _ => []
  | block :: rest, total_lines, max_total_lines =>
    let block_lines := countLines block.content
    if total_lines + block_lines ≤ max_total_lines then
      block :: limitAux rest (total_lines + block_lines) max_total_lines
    else
      let remaining_lines := max_total_lines - total_lines
      if remaining_lines > 10 then
        [{ block with
            content := String.mk (joinWith '\n' ((pySplitlines block.content.data).take remaining_lines)),
            end_line := block.start_line + (remaining_lines : Int) - 1 }]
      else []

/-- Embeds `prompt_builder._limit_code_context`. -/
def limit_code_context (source_code_context : List CodeBlock) (max_total_lines : Nat) :
    List CodeBlock :=
  limitAux source_code_context 0 max_total_lines

/-- Total number of source-context lines carried by a block list, counted
exactly as the code counts them (`len(content.splitlines())`). -/
def totalContextLines (blocks : List CodeBlock) : Nat :=
  (blocks.map (fun b => countLines b.content)).sum

/-- The `"=" * 80` separator bar. -/
def eqBar : String := String.mk (List.replicate 80 '=')

/-- The fixed system-instruction section of the prompt. -/
def systemInstruction : String :=
  "You are an expert debugging assistant. Analyze this error and provide actionable insights.\n\nCRITICAL CONSTRAINTS:\n- Base your analysis ONLY on the provided error message, stack trace, and source code context\n- DO NOT hallucinate logs, runtime values, or information not provided\n- DO NOT make assumptions about code that isn\x27t shown\n- Focus on what you can see in the stack trace and source code\n\n"

/-- The fixed analysis-request section of the prompt. -/
def analysisRequest : String :=
  "\nPlease provide:\n\n1. ROOT CAUSE ANALYSIS\n   - What is the likely root cause of this error?\n   - What evidence from the stack trace and source code supports this?\n\n2. SUGGESTED FIX\n   - What specific code changes would fix this error?\n   - Include the exact file path and line number(s) where changes are needed\n\n3. PREVENTION STRATEGY\n   - How could this error be prevented in the future?\n   - What code patterns or practices would help avoid this?\n\nRemember: Base your analysis ONLY on the provided context. Do not invent details.\n"

/-- One file entry of the source-context section.  Python renders the
target-line variant only when `target_line` is truthy (present and
nonzero). -/
def renderBlock (idx : Nat) (b : CodeBlock) : List String :=
  ["--- File " ++ toString idx ++ ": " ++ b.file_path ++ " ---"] ++
  (match b.target_line with
   | some t =>
     if t = 0 then ["Lines " ++ toString b.start_line ++ "-" ++ toString b.end_line ++ ":"]
     else ["Lines " ++ toString b.start_line ++ "-" ++ toString b.end_line ++
           " (error at line " ++ toString t ++ "):"]
   | none => ["Lines " ++ toString b.start_line ++ "-" ++ toString b.end_line ++ ":"]) ++
  ["", b.content, ""]

/-- The `enumerate(limited_context, 1)` loop of the source-context section. -/
def renderBlocks : Nat → List CodeBlock → List String
  | _, [] => []
  | idx, b :: rest => renderBlock idx b ++ renderBlocks (idx + 1) rest

/-- Embeds `prompt_builder.build_debugging_prompt`: limit the code context,
then join the fixed sections with newlines. -/
def build_debugging_prompt (error_message stack_trace : String)
    (source_code_context : List CodeBlock) (max_total_lines : Nat) : String :=
  let limited := limit_code_context source_code_context max_total_lines
  let parts : List String :=
    [systemInstruction, eqBar, "ERROR MESSAGE", eqBar, error_message, "",
     eqBar, "STACK TRACE", eqBar, stack_trace, ""] ++
    (if limited.isEmpty then
       [eqBar, "SOURCE CODE CONTEXT", eqBar, "(No source code context available)", ""]
     else
       [eqBar, "SOURCE CODE CONTEXT", eqBar, ""] ++ renderBlocks 1 limited) ++
    [eqBar, "ANALYSIS REQUEST", eqBar, analysisRequest]
  String.intercalate "\n" parts

/-- Written from the claim's words, as the reference for the refinement:
accumulate blocks in list order while they fit the remaining budget; the
first block that would exceed it is included head-truncated to the
remaining line count, with `end_line` adjusted to
`start_line + remaining - 1`, only when the remaining budget exceeds the
minimum meaningful size of 10 lines; that block and all following blocks
are otherwise dropped entirely. -/
def claimBudgetedBlocks (remaining_budget : Nat) : List CodeBlock → List CodeBlock
  | [] => []
  | b :: rest =>
    let n := countLines b.content
    if n ≤ remaining_budget then b :: claimBudgetedBlocks (remaining_budget - n) rest
    else if remaining_budget > 10 then
      [{ b with
          content :=
            String.mk (joinWith '\n' ((pySplitlines b.content.data).take remaining_budget)),
          end_line := b.start_line + (remaining_budget : Int) - 1 }]
    else []

/-- The StackFrame dataclass. -/
structure StackFrame where
  file_path : String
  line_number : Option Nat := none
  function_name : Option String := none
  raw_line : String := ""
deriving DecidableEq

/-- Python `str.lower()`. -/
def lowerChars (cs : List Char) : List Char := cs.map Char.toLower

/-- Python `str.replace` of backslashes by forward slashes. -/
def replaceBS (cs : List Char) : List Char := cs.map (fun c => if c = '\\' then '/' else c)

/-- Plain list-prefix test used by the substring test below. -/
def isPrefixChars : List Char → List Char → Bool
  | [], _ => true
  | _ :: _, [] => false
  | p :: ps, c :: cs => p == c && isPrefixChars ps cs

/-- Python `needle in hay` for strings: substring containment. -/
def containsSub (needle : List Char) : List Char → Bool
  | [] => needle.isEmpty
  | c :: rest => isPrefixChars needle (c :: rest) || containsSub needle rest

/-- The fixed deny-list `excluded_patterns` of `get_relevant_files`. -/
def excluded_patterns : List String :=
  ["node_modules", ".next", ".nuxt",
   "venv", "env", ".venv", "__pycache__", "site-packages", ".pytest_cache",
   "target", ".gradle",
   "dist", "build", ".build", "out", "bin", "obj",
   ".idea", ".vscode", ".git"]

/-- The per-frame filter of `get_relevant_files`: the raw path is lowered,
backslashes are normalized, then the frame is dropped if the result
contains `node_modules` or any deny-list marker. -/
def frameExcluded (file_path : String) : Bool :=
  let original_path_lower := replaceBS (lowerChars file_path.data)
  containsSub "node_modules".data original_path_lower ||
    excluded_patterns.any (fun pat => containsSub pat.data original_path_lower)

/-- The scan of `get_relevant_files`: skip excluded or already-seen paths,
append the frame otherwise, and break once `len(unique_frames) >= max_files`
(checked after the append). -/
def selectLoop : List StackFrame → List String → Nat → Nat → List StackFrame
  | [], _, _, _ => []
  | frame :: rest, seen_paths, count, max_files =>
    if frameExcluded frame.file_path then selectLoop rest seen_paths count max_files
    else if frame.file_path ∈ seen_paths then selectLoop rest seen_paths count max_files
    else if count + 1 ≥ max_files then [frame]
    else frame :: selectLoop rest (frame.file_path :: seen_paths) (count + 1) max_files

/-- Embeds `get_relevant_files`. -/
def get_relevant_files (stack_frames : List StackFrame) (max_files : Nat) : List StackFrame :=
  if stack_frames.isEmpty then [] else selectLoop stack_frames [] 0 max_files

/-- Character class `\s`. -/
def isSpaceChar (c : Char) : Bool := c.isWhitespace

/-- Character class `[\w.]`. -/
def isWordDot (c : Char) : Bool := c.isAlphanum || c == '_' || c == '.'

/-- Python `int` of a nonempty digit string. -/
def digitsVal (ds : List Char) : Nat :=
  ds.foldl (fun acc c => acc * 10 + (c.toNat - '0'.toNat)) 0

/-- Unanchored search: try the anchored matcher at each start position,
left to right, as `re.search` does. -/
def reSearch {α : Type} (f : List Char → Option α) : List Char → Option α
  | [] => f []
  | c :: rest =>
    match f (c :: rest) with
    | some r => some r
    | none => reSearch f rest

/-- Tail `:(\d+):(\d+)\)` of the first Node pattern; returns the first
captured number. -/
def p1Tail : List Char → Option Nat
  | ':' :: u =>
    let d1 := u.takeWhile Char.isDigit
    if d1.isEmpty then none
    else
      match u.drop d1.length with
      | ':' :: v =>
        let d2 := v.takeWhile Char.isDigit
        if d2.isEmpty then none
        else
          match v.drop d2.length with
          | ')' :: _ => some (digitsVal d1)
          | _ => none
      | _ => none
  | _ => none

/-- Lazy group `(.+?)` before `p1Tail`: grow the shortest nonempty
newline-free prefix until the tail matches. -/
def p1Lazy : List Char → List Char → Option (List Char × Nat)
  | [], _ => none
  | c :: t, acc =>
    if c = '\n' then none
    else
      match p1Tail t with
      | some n => some (acc ++ [c], n)
      | none => p1Lazy t (acc ++ [c])

/-- Fragment `\((.+?):(\d+):(\d+)\)`. -/
def p1Paren : List Char → Option (List Char × Nat)
  | '(' :: t => p1Lazy t []
  | _ => none

/-- Fragment `\s+\(` then the parenthesised tail. -/
def p1SymTail (t : List Char) : Option (List Char × Nat) :=
  let ws := t.takeWhile isSpaceChar
  if ws.isEmpty then none else p1Paren (t.drop ws.length)

/-- Optional symbol group `[\w.]+(?:\s+[\w.]+)?\s+` then the parenthesised
tail, trying the inner optional group first as the regex engine does. -/
def p1WithSym (t : List Char) : Option (List Char × Nat) :=
  let w1 := t.takeWhile isWordDot
  if w1.isEmpty then none
  else
    let t1 := t.drop w1.length
    let withInner : Option (List Char × Nat) :=
      let ws2 := t1.takeWhile isSpaceChar
      if ws2.isEmpty then none
      else
        let t2 := t1.drop ws2.length
        let w2 := t2.takeWhile isWordDot
        if w2.isEmpty then none
        else p1SymTail (t2.drop w2.length)
    match withInner with
    | some r => some r
    | none => p1SymTail t1

/-- Anchored matcher for
`at\s+(?:[\w.]+(?:\s+[\w.]+)?\s+)?\((.+?):(\d+):(\d+)\)`
(Node format with optional function symbol). -/
def p1At : List Char → Option (List Char × Nat)
  | 'a' :: 't' :: c :: rest =>
    if isSpaceChar c then
      let rest1 := (c :: rest).dropWhile isSpaceChar
      match p1WithSym rest1 with
      | some r => some r
      | none => p1Paren rest1
    else none
  | _ => none

/-- Tail `:(\d+):(\d+)(?:\s|$)` of the second Node pattern. -/
def p2Tail : List Char → Option Nat
  | ':' :: u =>
    let d1 := u.takeWhile Char.isDigit
    if d1.isEmpty then none
    else
      match u.drop d1.length with
      | ':' :: v =>
        let d2 := v.takeWhile Char.isDigit
        if d2.isEmpty then none
        else
          match v.drop d2.length with
          | [] => some (digitsVal d1)
          | c :: _ => if isSpaceChar c then some (digitsVal d1) else none
      | _ => none
  | _ => none

/-- Lazy group `(.+?)` before `p2Tail`. -/
def p2Lazy : List Char → List Char → Option (List Char × Nat)
  | [], _ => none
  | c :: t, acc =>
    if c = '\n' then none
    else
      match p2Tail t with
      | some n => some (acc ++ [c], n)
      | none => p2Lazy t (acc ++ [c])

/-- Greedy `\s+` before the lazy path of the second Node pattern: try the
longest whitespace run first, then backtrack to shorter nonempty runs. -/
def p2TryWs (w : List Char) : Nat → Option (List Char × Nat)
  | 0 => none
  | Nat.succ k =>
    match p2Lazy (w.drop (k + 1)) [] with
    | some r => some r
    | none => p2TryWs w k

/-- Anchored matcher for `at\s+(.+?):(\d+):(\d+)(?:\s|$)` (Node format
without function symbol). -/
def p2At : List Char → Option (List Char × Nat)
  | 'a' :: 't' :: c :: rest =>
    if isSpaceChar c then
      p2TryWs (c :: rest) ((c :: rest).takeWhile isSpaceChar).length
    else none
  | _ => none

/-- Character class `[^"\']`. -/
def isNotQuote (c : Char) : Bool := !(c == '"') && !(c == '\'')

/-- Anchored matcher for `File\s+["\']([^"\']+)["\']\s*,\s*line\s+(\d+)`
(Python traceback format). -/
def p3At : List Char → Option (List Char × Nat)
  | 'F' :: 'i' :: 'l' :: 'e' :: rest =>
    let ws := rest.takeWhile isSpaceChar
    if ws.isEmpty then none
    else
      match rest.drop ws.length with
      | q :: u =>
        if q = '"' || q = '\'' then
          let path := u.takeWhile isNotQuote
          if path.isEmpty then none
          else
            match u.drop path.length with
            | q2 :: v =>
              if q2 = '"' || q2 = '\'' then
                let ws1 := v.takeWhile isSpaceChar
                match v.drop ws1.length with
                | ',' :: w =>
                  let ws2 := w.takeWhile isSpaceChar
                  match w.drop ws2.length with
                  | 'l' :: 'i' :: 'n' :: 'e' :: x =>
                    let ws3 := x.takeWhile isSpaceChar
                    if ws3.isEmpty then none
                    else
                      let d := (x.drop ws3.length).takeWhile Char.isDigit
                      if d.isEmpty then none else some (path, digitsVal d)
                  | _ => none
                | _ => none
              else none
            | [] => none
        else none
      | [] => none
  | _ => none

/-- Anchored matcher for `at\s+[\w.]+\(([^:]+):(\d+)\)` (Java format). -/
def p4At : List Char → Option (List Char × Nat)
  | 'a' :: 't' :: c :: rest =>
    if isSpaceChar c then
      let t := (c :: rest).dropWhile isSpaceChar
      let w := t.takeWhile isWordDot
      if w.isEmpty then none
      else
        match t.drop w.length with
        | '(' :: u =>
          let path := u.takeWhile (fun ch => !(ch == ':'))
          if path.isEmpty then none
          else
            match u.drop path.length with
            | ':' :: v =>
              let d := v.takeWhile Char.isDigit
              if d.isEmpty then none
              else
                match v.drop d.length with
                | ')' :: _ => some (path, digitsVal d)
                | _ => none
            | _ => none
        | _ => none
    else none
  | _ => none

/-- The extension alternation `js|py|java|ts|tsx|jsx|go|rs|rb|php` of the
generic fallback pattern. -/
def sourceExts : List String :=
  ["js", "py", "java", "ts", "tsx", "jsx", "go", "rs", "rb", "php"]

/-- Character class `[^\s:]`. -/
def isRunChar (c : Char) : Bool := !c.isWhitespace && !(c == ':')

/-- Try the extension alternatives in order; each must be followed by
`:(\d+)` for the alternative to commit. -/
def p5ExtChain : List (List Char) → List Char → Option (List Char × Nat)
  | [], _ => none
  | e :: es, u =>
    if isPrefixChars e u then
      match u.drop e.length with
      | ':' :: v =>
        let d := v.takeWhile Char.isDigit
        if d.isEmpty then p5ExtChain es u else some (e, digitsVal d)
      | _ => p5ExtChain es u
    else p5ExtChain es u

/-- Greedy `[^\s:]+` before `\.(?:ext):(\d+)`: try run lengths from the
maximal run downwards. -/
def p5TryLen (s : List Char) : Nat → Option (List Char × Nat)
  | 0 => none
  | Nat.succ k =>
    (match s.drop (k + 1) with
     | '.' :: u =>
       match p5ExtChain (sourceExts.map String.data) u with
       | some (e, n) => some (s.take (k + 1) ++ '.' :: e, n)
       | none => p5TryLen s k
     | _ => p5TryLen s k)

/-- Anchored matcher for the generic fallback
`((?:[A-Za-z]:)?[^\s:]+\.(?:js|py|java|ts|tsx|jsx|go|rs|rb|php)):(\d+)`,
trying the optional drive-letter prefix first as the greedy `?` does. -/
def p5At (s : List Char) : Option (List Char × Nat) :=
  let withDrive : Option (List Char × Nat) :=
    match s with
    | a :: ':' :: u =>
      if a.isAlpha then
        match p5TryLen u (u.takeWhile isRunChar).length with
        | some (g, n) => some (a :: ':' :: g, n)
        | none => none
      else none
    | _ => none
  match withDrive with
  | some r => some r
  | none =>
    match p5TryLen s (s.takeWhile isRunChar).length with
    | some (g, n) => some (g, n)
    | none => none

/-- Embeds `_parse_line`: the fixed-priority battery of the five format
matchers, first match wins; `group(1).strip()` becomes `pyStrip`,
`int(group(2))` becomes the digit value, `function_name` is never set and
`raw_line` is the (already stripped) line. -/
def parse_line (line : List Char) : Option StackFrame :=
  match reSearch p1At line with
  | some (path, n) =>
    some { file_path := String.mk (pyStrip path), line_number := some n,
           raw_line := String.mk line }
  | none =>
    match reSearch p2At line with
    | some (path, n) =>
      some { file_path := String.mk (pyStrip path), line_number := some n,
             raw_line := String.mk line }
    | none =>
      match reSearch p3At line with
      | some (path, n) =>
        some { file_path := String.mk (pyStrip path), line_number := some n,
               raw_line := String.mk line }
      | none =>
        match reSearch p4At line with
        | some (path, n) =>
          some { file_path := String.mk (pyStrip path), line_number := some n,
                 raw_line := String.mk line }
        | none =>
          match reSearch p5At line with
          | some (path, n) =>
            some { file_path := String.mk (pyStrip path), line_number := some n,
                   raw_line := String.mk line }
          | none => none

/-- The per-line step of `parse_stack_trace`: strip, skip blank lines,
classify. -/
def lineToFrame (l : List Char) : Option StackFrame :=
  let line := pyStrip l
  if line.isEmpty then none else parse_line line

/-- Embeds `parse_stack_trace`: handle the falsy-input guard, split on
newlines, process each line. -/
def parse_stack_trace (stack_trace : String) : List StackFrame :=
  if stack_trace = "" then []
  else (splitOnChar '\n' stack_trace.data).filterMap lineToFrame

/-- Configuration constants of `app/celery/tasks.py`. -/
def GIT_FETCH_TOTAL_TIMEOUT : Int := 15

/-- Minimum files to consider "enough" context. -/
def MIN_FILES_FOR_CONTEXT : Nat := 2

/-- What one iteration of the fetch loop observes for its frame:
`fetch_file_with_context` returned a code block, returned `None` (timeouts
and transport errors are already collapsed to `None` inside `fetch_file`),
or the normalization/fetch raised and the per-frame `except` caught it. -/
inductive FrameOutcome
  | ok (b : CodeBlock)
  | notFound
  | raised
deriving DecidableEq

/-- The block a successful iteration appends. -/
def okBlock : FrameOutcome → Option CodeBlock
  | FrameOutcome.ok b => some b
  | FrameOutcome.notFound => none
  | FrameOutcome.raised => none

/-- Embeds the `for idx, frame in enumerate(relevant_frames)` loop of
`perform_ai_analysis`: check the global budget, check the early-exit rule,
then attempt the frame; a `None` result or a caught exception just moves to
the next frame.  `elapsed idx` models the monotonic-clock reading
`time.time() - fetch_start_time` observed at iteration `idx`. -/
def fetchLoop : List FrameOutcome → Nat → List CodeBlock → (Nat → Int) → List CodeBlock
  | [], _, acc, _ => acc
  | o :: rest, idx, acc, elapsed =>
    if elapsed idx ≥ GIT_FETCH_TOTAL_TIMEOUT then acc
    else if idx ≥ MIN_FILES_FOR_CONTEXT ∧ acc.length ≥ MIN_FILES_FOR_CONTEXT then acc
    else
      match o with
      | FrameOutcome.ok b => fetchLoop rest (idx + 1) (acc ++ [b]) elapsed
      | FrameOutcome.notFound => fetchLoop rest (idx + 1) acc elapsed
      | FrameOutcome.raised => fetchLoop rest (idx + 1) acc elapsed

/-- Default used only to totalize heap reads at dangling indices. -/
def emptyBlock : CodeBlock :=
  { file_path := "", content := "", start_line := 0, end_line := 0 }

/-- Read the dict a reference points to. -/
def heapRead (store : List CodeBlock) (r : Nat) : CodeBlock := store.getD r emptyBlock

/-- Item assignment on the dict a reference points to. -/
def heapWrite (store : List CodeBlock) (r : Nat) (b : CodeBlock) : List CodeBlock :=
  store.set r b

/-- `dict.copy()`: allocate a fresh cell holding the same fields. -/
def heapAlloc (store : List CodeBlock) (b : CodeBlock) : List CodeBlock × Nat :=
  (store ++ [b], store.length)

/-- Embeds the `_limit_code_context` loop over references into the store;
returns the final store and the references of the limited list.  In the
truncation branch, `truncated_block = block.copy()` allocates, then
`truncated_block["content"] = ...` and `truncated_block["end_line"] = ...`
are two writes to the fresh cell. -/
def limitAuxRef : List Nat → Nat → Nat → List CodeBlock → List CodeBlock × List Nat
  | [], _, _, store => (store, [])
  | r :: rest, total_lines, max_total_lines, store =>
    let block := heapRead store r
    let block_lines := countLines block.content
    if total_lines + block_lines ≤ max_total_lines then
      let res := limitAuxRef rest (total_lines + block_lines) max_total_lines store
      (res.1, r :: res.2)
    else
      let remaining_lines := max_total_lines - total_lines
      if remaining_lines > 10 then
        let alloc := heapAlloc store block
        let store2 := heapWrite alloc.1 alloc.2
          { heapRead alloc.1 alloc.2 with
              content :=
                String.mk (joinWith '\n' ((pySplitlines block.content.data).take remaining_lines)) }
        let store3 := heapWrite store2 alloc.2
          { heapRead store2 alloc.2 with
              end_line := block.start_line + (remaining_lines : Int) - 1 }
        (store3, [alloc.2])
      else (store, [])

/-- Embeds `_limit_code_context` over the reference model. -/
def limit_code_context_ref (refs : List Nat) (max_total_lines : Nat)
    (store : List CodeBlock) : List CodeBlock × List Nat :=
  limitAuxRef refs 0 max_total_lines store

/-- Separator class `[/\\]` of the normalization regexes. -/
def isSepChar (c : Char) : Bool := c == '/' || c == '\\'

/-- Case-insensitive prefix test (both sides lowered, as `re.IGNORECASE`
does for the ASCII patterns involved). -/
def startsWithCI : List Char → List Char → Bool
  | [], _ => true
  | _ :: _, [] => false
  | p :: ps, c :: cs => (c.toLower == p.toLower) && startsWithCI ps cs

/-- One `re.sub(r'^name[/\\]', '', s, flags=re.IGNORECASE)` step: the
pattern is anchored, so at most the leading `name` plus one separator is
removed. -/
def stripDirPat (name : List Char) (s : List Char) : List Char :=
  if startsWithCI name s then
    match s.drop name.length with
    | c :: rest => if isSepChar c then rest else s
    | [] => s
  else s

/-- `project_indicators` of `_remove_absolute_prefix` (matched
case-sensitively there). -/
def project_indicators : List String :=
  ["src", "lib", "app", "backend", "frontend", "server", "client",
   "packages", "services", "example", "examples", "test", "tests"]

/-- Default root hints of `_remove_project_prefixes`. -/
def default_root_hints : List String :=
  ["src", "lib", "app", "backend", "frontend", "server", "client",
   "packages", "services", "example", "examples"]

/-- `build_patterns` of `_remove_build_artifacts`, in source order. -/
def build_patterns : List String :=
  ["dist", "build", ".next", ".nuxt", "out", "target", "bin", "obj"]

/-- The non-`node_modules` patterns of `_remove_excluded_dirs`, in source
order. -/
def excluded_dir_patterns : List String :=
  [".git", ".vscode", ".idea", "venv", "env", ".env"]

/-- Drive-letter prefix test `^[A-Za-z]:[/\\]`. -/
def windowsDriveMatch : List Char → Bool
  | a :: b :: c :: _ => a.isAlpha && (b == ':') && isSepChar c
  | _ => false

/-- First path segment that names a project indicator, with everything
after it (the `'/'.join(parts[i:])` of the first match). -/
def firstIndicatorSuffix : List (List Char) → Option (List (List Char))
  | [] => none
  | p :: rest =>
    if (project_indicators.map String.data).contains p then some (p :: rest)
    else firstIndicatorSuffix rest

/-- The Unix-absolute-path branch (and final identity fallthrough) of
`_remove_absolute_prefix`. -/
def removeUnixAbs (s : List Char) : List Char :=
  match s with
  | '/' :: _ =>
    let parts := splitOnChar '/' s
    match firstIndicatorSuffix parts with
    | some suf => joinWith '/' suf
    | none =>
      if parts.length > 4 then joinWith '/' (parts.drop (parts.length - 4))
      else s.dropWhile (fun c => c == '/')
  | _ => s

/-- Embeds `GitFetcher._remove_absolute_prefix`.  The greedy group `(.+)`
of the drive-letter pattern stops at a newline and must be nonempty;
otherwise control falls through to the Unix branch. -/
def remove_absolute_prefixes (s : List Char) : List Char :=
  if windowsDriveMatch s then
    let g := (s.drop 3).takeWhile (fun c => !(c == '\n'))
    if !g.isEmpty then g else removeUnixAbs s
  else removeUnixAbs s

/-- Embeds `GitFetcher._remove_build_artifacts`: the eight anchored
substitutions applied in order to the evolving string. -/
def remove_build_artifacts (s : List Char) : List Char :=
  build_patterns.foldl (fun acc pat => stripDirPat pat.data acc) s

/-- First segment equal (case-insensitively) to some hint, with its
suffix. -/
def firstHintSuffix (hints : List (List Char)) : List (List Char) → Option (List (List Char))
  | [] => none
  | p :: rest =>
    if hints.any (fun h => lowerChars h == lowerChars p) then some (p :: rest)
    else firstHintSuffix hints rest

/-- First segment equal (case-insensitively) to the given hint, with its
suffix. -/
def firstEqCISuffix (h : List Char) : List (List Char) → Option (List (List Char))
  | [] => none
  | p :: rest =>
    if lowerChars p == lowerChars h then some (p :: rest) else firstEqCISuffix h rest

/-- The `for hint in repo_root_hints` fallback loop of
`_remove_project_prefixes`. -/
def hintOrderSuffix (parts : List (List Char)) : List (List Char) → Option (List (List Char))
  | [] => none
  | h :: hs =>
    match firstEqCISuffix h parts with
    | some suf => some suf
    | none => hintOrderSuffix parts hs

/-- Embeds `GitFetcher._remove_project_prefixes`; a missing or empty hint
list falls back to the defaults (Python truthiness). -/
def remove_project_prefixes (s : List Char) (repo_root_hints : Option (List (List Char))) :
    List Char :=
  let hints : List (List Char) :=
    match repo_root_hints with
    | some (h :: hs) => h :: hs
    | _ => default_root_hints.map String.data
  let normalized := replaceBS s
  let parts := splitOnChar '/' normalized
  match firstHintSuffix hints parts with
  | some suf => joinWith '/' suf
  | none =>
    if parts.length > 5 then
      match hintOrderSuffix parts hints with
      | some suf => joinWith '/' suf
      | none => normalized
    else normalized

/-- The literal `node_modules`. -/
def nmMarker : List Char := "node_modules".data

/-- Whether the character at index `j` exists and is a separator. -/
def isSepAt (s : List Char) (j : Nat) : Bool :=
  match s[j]? with
  | some c => isSepChar c
  | none => false

/-- Whether the character at index `j` exists and is not a newline. -/
def notNlAt (s : List Char) (j : Nat) : Bool :=
  match s[j]? with
  | some c => !(c == '\n')
  | none => false

/-- Start positions where `.*[/\\]node_modules[/\\](.+)` can place the
separator before `node_modules`: `.*` cannot cross a newline, both
separators must be present, the marker is matched case-insensitively and
at least one non-newline character must follow. -/
def nmCandAt (s : List Char) (j : Nat) : Bool :=
  ((s.take j).all (fun c => !(c == '\n'))) &&
  isSepAt s j &&
  startsWithCI nmMarker (s.drop (j + 1)) &&
  isSepAt s (j + 13) &&
  notNlAt s (j + 14)

/-- The greedy `.*` picks the last viable start position. -/
def nmLastCand (s : List Char) : Option Nat :=
  ((List.range s.length).filter (fun j => nmCandAt s j)).getLast?

/-- Embeds `GitFetcher._remove_excluded_dirs`: if the `node_modules` regex
matches, return its group 1 (the greedy `(.+)` runs to the next newline);
otherwise apply the anchored excluded-directory substitutions in order. -/
def remove_excluded_dirs (s : List Char) : List Char :=
  match nmLastCand s with
  | some j => (s.drop (j + 14)).takeWhile (fun c => !(c == '\n'))
  | none => excluded_dir_patterns.foldl (fun acc pat => stripDirPat pat.data acc) s

/-- Index of the first occurrence of `needle` in `hay` (`str.find`). -/
def findSubIdx (needle : List Char) : List Char → Option Nat
  | [] => if needle.isEmpty then some 0 else none
  | c :: rest =>
    if isPrefixChars needle (c :: rest) then some 0
    else (findSubIdx needle rest).map (fun i => i + 1)

/-- Embeds `GitFetcher._normalize_using_repo_name`. -/
def normalize_using_repo_name (file_path repo_name : List Char) : List Char :=
  if repo_name.isEmpty || file_path.isEmpty then file_path
  else
    let path_normalized := replaceBS file_path
    let repo_name_normalized := replaceBS repo_name
    match findSubIdx (lowerChars repo_name_normalized) (lowerChars path_normalized) with
    | none => file_path
    | some idx =>
      let after_repo := ((path_normalized.drop (idx + repo_name_normalized.length)).dropWhile
        (fun c => c == '/')).dropWhile (fun c => c == '\\')
      if after_repo.isEmpty then file_path else after_repo

/-- The repo-configuration dict keys `normalize_path` reads. -/
structure RepoCfg where
  repo : Option String := none
  root_dir : Option String := none
  root_hints : Option (List String) := none

/-- Embeds `GitFetcher.normalize_path` on character lists: empty-input
guard, strip, repo-name anchoring (step 0), hint extraction, then the
six-step pipeline. -/
def normalizePathChars (file_path0 : List Char) (repo_config : Option RepoCfg) : List Char :=
  match file_path0 with
  | [] => []
  | c0 :: rest0 =>
    let file_path := pyStrip (c0 :: rest0)
    let step0 : Option (List Char) :=
      match repo_config with
      | some cfg =>
        match cfg.repo with
        | some rn =>
          if rn.data.isEmpty then none
          else
            let normalized := normalize_using_repo_name file_path rn.data
            if normalized ≠ file_path then
              some (remove_excluded_dirs ((replaceBS normalized).dropWhile (fun c => c == '/')))
            else none
        | none => none
      | none => none
    match step0 with
    | some result => result
    | none =>
      let repo_root_hints : Option (List (List Char)) :=
        match repo_config with
        | some cfg =>
          match cfg.root_dir with
          | some rd =>
            if rd.data.isEmpty then cfg.root_hints.map (fun hs => hs.map String.data)
            else some [rd.data]
          | none => cfg.root_hints.map (fun hs => hs.map String.data)
        | none => none
      let n1 := remove_absolute_prefixes file_path
      let n2 := remove_build_artifacts n1
      let n3 := remove_project_prefixes n2 repo_root_hints
      let n4 := replaceBS n3
      let n5 := n4.dropWhile (fun c => c == '/')
      remove_excluded_dirs n5

/-- Embeds `GitFetcher.normalize_path` on strings. -/
def normalize_path (file_path : String) (repo_config : Option RepoCfg) : String :=
  String.mk (normalizePathChars file_path.data repo_config)

/-- The already-normalized shape of the amended claim: a `src/` root
segment followed by one nonempty file name made of alphanumeric characters
and dots. -/
def simpleChar (c : Char) : Bool := c.isAlphanum || c == '.'

/-- A path of the form `src/<name>` with `<name>` nonempty, slash-free and
plain. -/
def SimpleNormalized (s : String) : Prop :=
  ∃ f : List Char, s.data = 's' :: 'r' :: 'c' :: '/' :: f ∧ f ≠ [] ∧
    ∀ c ∈ f, simpleChar c = true

/-! ## Theorems

Helper lemmas first, then for each claim its theorem and, where
applicable, its counterexample and witness. -/

theorem pySplitlines_cons (c : Char) (rest : List Char) :
    pySplitlines (c :: rest) =
      if c = '\n' then [] :: pySplitlines rest
      else
        match pySplitlines rest with
        | [] => [[c]]
        | l :: ls => (c :: l) :: ls := rfl

theorem pySplitlines_ne_nil (c : Char) (rest : List Char) :
    pySplitlines (c :: rest) ≠ [] := by
  rw [pySplitlines_cons]
  by_cases h : c = '\n'
  · simp [h]
  · rw [if_neg h]
    rcases pySplitlines rest with _ | ⟨l, ls⟩ <;> simp

theorem countLines_pos (s : String) (h : s ≠ "") : 1 ≤ countLines s := by
  rcases s with ⟨l⟩
  rcases l with _ | ⟨c, rest⟩
  · exact absurd rfl h
  · have := pySplitlines_ne_nil c rest
    have hlen : 0 < (pySplitlines (c :: rest)).length := List.length_pos.mpr this
    simpa [countLines] using hlen

/-- Every line produced by `pySplitlines` is free of the terminator. -/
theorem pySplitlines_no_newline (cs : List Char) :
    ∀ l ∈ pySplitlines cs, '\n' ∉ l := by
  induction cs with
  | nil => intro l hl; simp [pySplitlines] at hl
  | cons c rest ih =>
    intro l hl
    rw [pySplitlines_cons] at hl
    by_cases h : c = '\n'
    · rw [if_pos h] at hl
      rcases List.mem_cons.mp hl with hl | hl
      · subst hl; simp
      · exact ih l hl
    · rw [if_neg h] at hl
      rcases hsp : pySplitlines rest with _ | ⟨l0, ls⟩
      · rw [hsp] at hl
        have hlc : l = [c] := by simpa using hl
        subst hlc
        simp only [List.mem_singleton]
        exact fun he => h he.symm
      · rw [hsp] at hl
        rcases List.mem_cons.mp hl with hl | hl
        · subst hl
          have hl0 : '\n' ∉ l0 := ih l0 (by rw [hsp]; exact List.mem_cons_self _ _)
          intro hmem
          rcases List.mem_cons.mp hmem with he | he
          · exact h he.symm
          · exact hl0 he
        · exact ih l (by rw [hsp]; exact List.mem_cons_of_mem _ hl)

/-- A terminator-free list of characters is at most one line. -/
theorem pySplitlines_length_le_one (l : List Char) (h : '\n' ∉ l) :
    (pySplitlines l).length ≤ 1 := by
  induction l with
  | nil => simp [pySplitlines]
  | cons c rest ih =>
    have hc : c ≠ '\n' := by intro hc; exact h (by simp [hc])
    have hrest : '\n' ∉ rest := fun hr => h (List.mem_cons_of_mem _ hr)
    rw [pySplitlines_cons, if_neg hc]
    rcases hsp : pySplitlines rest with _ | ⟨l0, ls⟩
    · simp
    · have := ih hrest
      rw [hsp] at this
      simpa using this

/-- Splitting right after a terminator-free first line. -/
theorem pySplitlines_append (l cs : List Char) (h : '\n' ∉ l) :
    pySplitlines (l ++ '\n' :: cs) = l :: pySplitlines cs := by
  induction l with
  | nil => simp [pySplitlines]
  | cons c rest ih =>
    have hc : c ≠ '\n' := by intro hc; exact h (by simp [hc])
    have hrest : '\n' ∉ rest := fun hr => h (List.mem_cons_of_mem _ hr)
    have ihr := ih hrest
    rw [List.cons_append, pySplitlines_cons, if_neg hc, ihr]

/-- Joining at most `n` terminator-free lines yields at most `n` lines. -/
theorem pySplitlines_joinWith_le (L : List (List Char)) (h : ∀ l ∈ L, '\n' ∉ l) :
    (pySplitlines (joinWith '\n' L)).length ≤ L.length := by
  induction L with
  | nil => simp [joinWith, pySplitlines]
  | cons l rest ih =>
    rcases rest with _ | ⟨l2, rest2⟩
    · simpa [joinWith] using pySplitlines_length_le_one l (h l (List.mem_cons_self _ _))
    · have hl : '\n' ∉ l := h l (List.mem_cons_self _ _)
      have hrest : ∀ x ∈ l2 :: rest2, '\n' ∉ x := fun x hx => h x (List.mem_cons_of_mem _ hx)
      have : joinWith '\n' (l :: l2 :: rest2) = l ++ '\n' :: joinWith '\n' (l2 :: rest2) := rfl
      rw [this, pySplitlines_append l _ hl]
      simpa using ih hrest

/-- Slicing as index selection: `(l.drop i).take k` picks out exactly the
elements at positions `i, i+1, ..., i+k-1`. -/
theorem drop_take_eq_range'_filterMap {α : Type} (l : List α) (i k : Nat) :
    (l.drop i).take k = (List.range' i k).filterMap (fun n => l[n]?) := by
  induction k generalizing i with
  | zero => simp
  | succ k ih =>
    rw [List.range'_succ, List.filterMap_cons]
    rcases hget : l[i]? with _ | a
    · have hlen : l.length ≤ i := by
        simpa using (List.getElem?_eq_none_iff).mp hget
      have hdrop : l.drop i = [] := List.drop_of_length_le hlen
      rw [hdrop]
      simp only [List.take_nil]
      have : (List.range' (i + 1) k).filterMap (fun n => l[n]?) = [] := by
        rw [List.filterMap_eq_nil_iff]
        intro n hn
        have hmem := (List.mem_range'_1).mp hn
        exact (List.getElem?_eq_none_iff).mpr (by omega)
      rw [this]
    · have hi : i < l.length := by
        by_contra hcon
        push_neg at hcon
        rw [(List.getElem?_eq_none_iff).mpr hcon] at hget
        exact absurd hget (by simp)
      have hdrop : l.drop i = l[i] :: l.drop (i + 1) := List.drop_eq_getElem_cons hi
      have ha : l[i] = a := by
        have := List.getElem?_eq_getElem hi
        rw [hget] at this
        exact (Option.some.injEq _ _ ▸ this).symm
      rw [hdrop, List.take_cons (Nat.succ_pos k), ha]
      simp only [Nat.succ_sub_one]
      rw [ih (i + 1)]

/-- C1: the claim says `fetch_file` raises exactly when the provider is
neither github nor gitlab.  In the code the `raise ValueError` sits inside
the same `try` whose final `except Exception` clause returns `None`, so the
configuration error is swallowed: `fetch_file` never raises for any
provider, and an unsupported provider yields `None` like any other failure.
This theorem evaluates the code at the failing input (provider
"bitbucket") and proves totality for every provider and fetch outcome. -/
theorem C1_fetch_file_never_raises :
    fetch_file "bitbucket" (Except.ok none) (Except.ok none) = Except.ok none ∧
    ∀ (provider : String) (gh gl : Except PyExc (Option String)),
      ∃ v, fetch_file provider gh gl = Except.ok v := by
  constructor
  · rfl
  · intro provider gh gl
    by_cases h1 : provider = "github"
    · rcases gh with e | v
      · exact ⟨none, by simp [fetch_file, h1]⟩
      · exact ⟨v, by simp [fetch_file, h1]⟩
    · by_cases h2 : provider = "gitlab"
      · rcases gl with e | v
        · exact ⟨none, by simp [fetch_file, h1, h2]⟩
        · exact ⟨v, by simp [fetch_file, h1, h2]⟩
      · exact ⟨none, by simp [fetch_file, h1, h2]⟩

theorem totalContextLines_limitAux (ctx : List CodeBlock) (total maxT : Nat)
    (h : total ≤ maxT) :
    totalContextLines (limitAux ctx total maxT) ≤ maxT - total := by
  induction ctx generalizing total with
  | nil => simp [limitAux, totalContextLines]
  | cons b rest ih =>
    unfold limitAux
    by_cases hfit : total + countLines b.content ≤ maxT
    · rw [if_pos hfit]
      have hrec := ih (total + countLines b.content) hfit
      simp only [totalContextLines, List.map_cons, List.sum_cons] at *
      omega
    · rw [if_neg hfit]
      by_cases hrem : maxT - total > 10
      · rw [if_pos hrem]
        have hfree : ∀ l ∈ (pySplitlines b.content.data).take (maxT - total), '\n' ∉ l :=
          fun l hl => pySplitlines_no_newline _ l (List.mem_of_mem_take hl)
        have hjoin := pySplitlines_joinWith_le _ hfree
        have htake : ((pySplitlines b.content.data).take (maxT - total)).length ≤ maxT - total :=
          (List.length_take _ _).le.trans (min_le_left _ _)
        simp only [totalContextLines, List.map_cons, List.map_nil, List.sum_cons,
          List.sum_nil, countLines]
        omega
      · rw [if_neg hrem]
        simp [totalContextLines]

theorem limitAux_eq_claimBudgetedBlocks (ctx : List CodeBlock) (total maxT : Nat)
    (h : total ≤ maxT) :
    limitAux ctx total maxT = claimBudgetedBlocks (maxT - total) ctx := by
  induction ctx generalizing total with
  | nil => rfl
  | cons b rest ih =>
    unfold limitAux claimBudgetedBlocks
    by_cases hfit : total + countLines b.content ≤ maxT
    · rw [if_pos hfit, if_pos (by omega : countLines b.content ≤ maxT - total)]
      rw [ih (total + countLines b.content) hfit]
      have harith : maxT - (total + countLines b.content) =
          maxT - total - countLines b.content := by omega
      rw [harith]
    · rw [if_neg hfit, if_neg (by omega : ¬ countLines b.content ≤ maxT - total)]

/-- C2: the prompt built by `build_debugging_prompt` carries at most
`max_total_lines` total lines of source-code context, and the context it
renders is exactly the claim's budgeting procedure: `limit_code_context`
(whose output is the context rendered into the prompt) accumulates blocks
in list order within the budget, head-truncates the first overflowing
block (adjusting `end_line` to `start_line + remaining - 1`) only when
more than 10 lines of budget remain, and drops everything else. -/
theorem C2_context_line_budget (source_code_context : List CodeBlock) (max_total_lines : Nat) :
    totalContextLines (limit_code_context source_code_context max_total_lines) ≤
      max_total_lines ∧
    limit_code_context source_code_context max_total_lines =
      claimBudgetedBlocks max_total_lines source_code_context := by
  constructor
  · have := totalContextLines_limitAux source_code_context 0 max_total_lines (Nat.zero_le _)
    simpa [limit_code_context] using this
  · have := limitAux_eq_claimBudgetedBlocks source_code_context 0 max_total_lines (Nat.zero_le _)
    simpa [limit_code_context] using this

/-- C3: on a successfully fetched file, `fetch_file_with_context` with a
line number returns the closed window `[max(1, L-C), min(T, L+C)]` clipped
to the file, whose content is exactly those lines of the file joined by
newlines, with the original line as `target_line`; with no line number it
returns the whole file as lines `1..T`. -/
theorem C3_fetch_window (fp content : String) (L C : Int) (hL : 1 ≤ L) (hC : 0 ≤ C) :
    (fetch_file_with_context fp content (some L) C).start_line = max 1 (L - C) ∧
    (fetch_file_with_context fp content (some L) C).end_line =
      min ((countLines content : Int)) (L + C) ∧
    (fetch_file_with_context fp content (some L) C).target_line = some L ∧
    (fetch_file_with_context fp content (some L) C).content =
      String.mk (joinWith '\n'
        ((List.range' ((max 1 (L - C)).toNat - 1)
            ((min ((countLines content : Int)) (L + C) + 1 - max 1 (L - C)).toNat)).filterMap
          (fun n => (pySplitlines content.data)[n]?))) ∧
    (fetch_file_with_context fp content none C).content = content ∧
    (fetch_file_with_context fp content none C).start_line = 1 ∧
    (fetch_file_with_context fp content none C).end_line = (countLines content : Int) := by
  refine ⟨rfl, rfl, rfl, ?_, rfl, rfl, rfl⟩
  simp only [fetch_file_with_context]
  rw [drop_take_eq_range'_filterMap]
  have h1 : (max 1 (L - C) - 1).toNat = (max 1 (L - C)).toNat - 1 := by omega
  have h2 : (min (((pySplitlines content.data).length : Int)) (L + C) - (max 1 (L - C) - 1)).toNat =
      (min (((pySplitlines content.data).length : Int)) (L + C) + 1 - max 1 (L - C)).toNat := by
    omega
  rw [h1, h2]
  rfl

theorem C3_fetch_window_witness :
    (fetch_file_with_context "f.js" "l1\nl2\nl3\nl4" (some 2) 1).start_line = max 1 (2 - 1) ∧
    (fetch_file_with_context "f.js" "l1\nl2\nl3\nl4" (some 2) 1).end_line =
      min ((countLines "l1\nl2\nl3\nl4" : Int)) (2 + 1) ∧
    (fetch_file_with_context "f.js" "l1\nl2\nl3\nl4" (some 2) 1).target_line = some 2 ∧
    (fetch_file_with_context "f.js" "l1\nl2\nl3\nl4" (some 2) 1).content =
      String.mk (joinWith '\n'
        ((List.range' ((max (1 : Int) (2 - 1)).toNat - 1)
            ((min ((countLines "l1\nl2\nl3\nl4" : Int)) (2 + 1) + 1 - max 1 (2 - 1)).toNat)).filterMap
          (fun n => (pySplitlines ("l1\nl2\nl3\nl4" : String).data)[n]?))) ∧
    (fetch_file_with_context "f.js" "l1\nl2\nl3\nl4" none 1).content = "l1\nl2\nl3\nl4" ∧
    (fetch_file_with_context "f.js" "l1\nl2\nl3\nl4" none 1).start_line = 1 ∧
    (fetch_file_with_context "f.js" "l1\nl2\nl3\nl4" none 1).end_line =
      (countLines "l1\nl2\nl3\nl4" : Int) :=
  C3_fetch_window "f.js" "l1\nl2\nl3\nl4" 2 1 (by decide) (by decide)

/-- C4 counterexample: a one-line file fetched with target line 5 and
context 0 produces `start_line = 5 > end_line = 1`, violating the claimed
invariant `end_line ≥ start_line ≥ 1`. -/
theorem C4_counterexample :
    ¬ ((fetch_file_with_context "a.js" "x" (some 5) 0).start_line ≤
       (fetch_file_with_context "a.js" "x" (some 5) 0).end_line) := by
  decide

/-- C4 (amended): blocks produced by `fetch_file_with_context` satisfy
`end_line ≥ start_line ≥ 1` provided the fetched file is non-empty and,
when a line number `L` with context `C` is given, `L ≥ 1`, `C ≥ 0` and
`L - C` does not lie beyond the end of the file. -/
theorem C4_block_invariant (fp content : String) (line_number : Option Int) (C : Int)
    (hcontent : content ≠ "")
    (hline : ∀ L, line_number = some L →
      1 ≤ L ∧ 0 ≤ C ∧ L - C ≤ (countLines content : Int)) :
    1 ≤ (fetch_file_with_context fp content line_number C).start_line ∧
    (fetch_file_with_context fp content line_number C).start_line ≤
      (fetch_file_with_context fp content line_number C).end_line := by
  have hT : 1 ≤ (countLines content : Int) := by
    exact_mod_cast countLines_pos content hcontent
  cases line_number with
  | none =>
    constructor
    · exact le_refl 1
    · simpa [fetch_file_with_context] using hT
  | some L =>
    obtain ⟨h1, h2, h3⟩ := hline L rfl
    simp only [fetch_file_with_context, countLines] at *
    constructor
    · exact le_max_left _ _
    · omega

theorem C4_block_invariant_witness :
    1 ≤ (fetch_file_with_context "a.js" "l1\nl2\nl3" (some 2) 1).start_line ∧
    (fetch_file_with_context "a.js" "l1\nl2\nl3" (some 2) 1).start_line ≤
      (fetch_file_with_context "a.js" "l1\nl2\nl3" (some 2) 1).end_line :=
  C4_block_invariant "a.js" "l1\nl2\nl3" (some 2) 1 (by decide)
    (by intro L hL; cases hL; refine ⟨by decide, by decide, by decide⟩)

theorem selectLoop_length (frames : List StackFrame) (seen : List String)
    (count max_files : Nat) :
    (selectLoop frames seen count max_files).length ≤ max 1 (max_files - count) := by
  induction frames generalizing seen count with
  | nil => simp [selectLoop]
  | cons f rest ih =>
    unfold selectLoop
    by_cases h1 : frameExcluded f.file_path
    · rw [if_pos h1]; exact ih seen count
    · rw [if_neg h1]
      by_cases h2 : f.file_path ∈ seen
      · rw [if_pos h2]; exact ih seen count
      · rw [if_neg h2]
        by_cases h3 : count + 1 ≥ max_files
        · rw [if_pos h3]; simp
        · rw [if_neg h3]
          have hrec := ih (f.file_path :: seen) (count + 1)
          simp only [List.length_cons]
          omega

theorem selectLoop_sublist (frames : List StackFrame) (seen : List String)
    (count max_files : Nat) :
    (selectLoop frames seen count max_files).Sublist frames := by
  induction frames generalizing seen count with
  | nil => simp [selectLoop]
  | cons f rest ih =>
    unfold selectLoop
    by_cases h1 : frameExcluded f.file_path
    · rw [if_pos h1]; exact (ih seen count).cons f
    · rw [if_neg h1]
      by_cases h2 : f.file_path ∈ seen
      · rw [if_pos h2]; exact (ih seen count).cons f
      · rw [if_neg h2]
        by_cases h3 : count + 1 ≥ max_files
        · rw [if_pos h3]
          exact (List.nil_sublist rest).cons₂ f
        · rw [if_neg h3]
          exact (ih (f.file_path :: seen) (count + 1)).cons₂ f

theorem selectLoop_nodup (frames : List StackFrame) (seen : List String)
    (count max_files : Nat) :
    ((selectLoop frames seen count max_files).map (fun f => f.file_path)).Nodup ∧
    ∀ f ∈ selectLoop frames seen count max_files, f.file_path ∉ seen := by
  induction frames generalizing seen count with
  | nil => simp [selectLoop]
  | cons f rest ih =>
    unfold selectLoop
    by_cases h1 : frameExcluded f.file_path
    · rw [if_pos h1]; exact ih seen count
    · rw [if_neg h1]
      by_cases h2 : f.file_path ∈ seen
      · rw [if_pos h2]; exact ih seen count
      · rw [if_neg h2]
        by_cases h3 : count + 1 ≥ max_files
        · rw [if_pos h3]
          refine ⟨by simp, ?_⟩
          intro g hg
          rcases List.mem_singleton.mp hg with rfl
          exact h2
        · rw [if_neg h3]
          obtain ⟨hnd, hseen⟩ := ih (f.file_path :: seen) (count + 1)
          constructor
          · rw [List.map_cons, List.nodup_cons]
            refine ⟨?_, hnd⟩
            intro hmem
            rcases List.mem_map.mp hmem with ⟨g, hg, hgp⟩
            exact (hseen g hg) (hgp ▸ List.mem_cons_self _ _)
          · intro g hg
            rcases List.mem_cons.mp hg with rfl | hg
            · exact h2
            · intro hgs
              exact (hseen g hg) (List.mem_cons_of_mem _ hgs)

theorem selectLoop_not_excluded (frames : List StackFrame) (seen : List String)
    (count max_files : Nat) :
    ∀ f ∈ selectLoop frames seen count max_files, frameExcluded f.file_path = false := by
  induction frames generalizing seen count with
  | nil => simp [selectLoop]
  | cons f rest ih =>
    unfold selectLoop
    by_cases h1 : frameExcluded f.file_path
    · rw [if_pos h1]; exact ih seen count
    · rw [if_neg h1]
      by_cases h2 : f.file_path ∈ seen
      · rw [if_pos h2]; exact ih seen count
      · rw [if_neg h2]
        by_cases h3 : count + 1 ≥ max_files
        · rw [if_pos h3]
          intro g hg
          rcases List.mem_singleton.mp hg with rfl
          exact Bool.not_eq_true _ ▸ h1
        · rw [if_neg h3]
          intro g hg
          rcases List.mem_cons.mp hg with rfl | hg
          · exact Bool.not_eq_true _ ▸ h1
          · exact ih (f.file_path :: seen) (count + 1) g hg

/-- C6 counterexample: with `max_count = 0` the length check happens only
after the first append, so one frame is still returned, contradicting the
claim that at most `max_count` frames are returned for every `max_count`. -/
theorem C6_counterexample :
    ¬ ((get_relevant_files [{ file_path := "a.js", line_number := some 1,
                              raw_line := "a.js:1" }] 0).length ≤ 0) := by
  decide

theorem selectLoop_first_wins (frames : List StackFrame) (seen : List String)
    (count max_files : Nat) :
    ∀ g ∈ selectLoop frames seen count max_files,
      g.file_path ∉ seen ∧
      (frames.filter
        (fun f => !frameExcluded f.file_path && (f.file_path == g.file_path))).head? =
        some g := by
  induction frames generalizing seen count with
  | nil => simp [selectLoop]
  | cons f rest ih =>
    intro g hg
    unfold selectLoop at hg
    by_cases h1 : frameExcluded f.file_path
    · rw [if_pos h1] at hg
      obtain ⟨hseen, hhead⟩ := ih seen count g hg
      refine ⟨hseen, ?_⟩
      rw [List.filter_cons, if_neg (by simp [h1])]
      exact hhead
    · rw [if_neg h1] at hg
      by_cases h2 : f.file_path ∈ seen
      · rw [if_pos h2] at hg
        obtain ⟨hseen, hhead⟩ := ih seen count g hg
        have hdiff : (f.file_path == g.file_path) = false := by
          rw [beq_eq_false_iff_ne]
          intro he
          exact hseen (he ▸ h2)
        refine ⟨hseen, ?_⟩
        rw [List.filter_cons, if_neg (by simp [hdiff])]
        exact hhead
      · rw [if_neg h2] at hg
        by_cases h3 : count + 1 ≥ max_files
        · rw [if_pos h3] at hg
          rcases List.mem_singleton.mp hg with rfl
          refine ⟨h2, ?_⟩
          rw [List.filter_cons,
            if_pos (by simp [Bool.not_eq_true _ ▸ h1] : (!frameExcluded g.file_path &&
              (g.file_path == g.file_path)) = true)]
          rfl
        · rw [if_neg h3] at hg
          rcases List.mem_cons.mp hg with rfl | hg
          · refine ⟨h2, ?_⟩
            rw [List.filter_cons,
              if_pos (by simp [Bool.not_eq_true _ ▸ h1] : (!frameExcluded g.file_path &&
                (g.file_path == g.file_path)) = true)]
            rfl
          · obtain ⟨hseen, hhead⟩ := ih (f.file_path :: seen) (count + 1) g hg
            have hgs : g.file_path ∉ seen := fun hs => hseen (List.mem_cons_of_mem _ hs)
            have hdiff : (f.file_path == g.file_path) = false := by
              rw [beq_eq_false_iff_ne]
              intro he
              exact hseen (he ▸ List.mem_cons_self _ _)
            refine ⟨hgs, ?_⟩
            rw [List.filter_cons, if_neg (by simp [hdiff])]
            exact hhead

/-- C6 (amended): `select` returns at most `max 1 max_count` frames (so at
most `max_count` whenever `max_count ≥ 1`), never two frames with the same
raw `file_path` — and for each retained path the first non-excluded
occurrence wins — preserves the original relative order (the output is a
sublist of the input), and maps an empty input to an empty output. -/
theorem C6_select_bounds (frames : List StackFrame) (max_files : Nat) :
    (get_relevant_files frames max_files).length ≤ max 1 max_files ∧
    ((get_relevant_files frames max_files).map (fun f => f.file_path)).Nodup ∧
    (get_relevant_files frames max_files).Sublist frames ∧
    (∀ g ∈ get_relevant_files frames max_files,
      (frames.filter
        (fun f => !frameExcluded f.file_path && (f.file_path == g.file_path))).head? =
        some g) ∧
    (frames = [] → get_relevant_files frames max_files = []) := by
  unfold get_relevant_files
  by_cases h : frames.isEmpty
  · rw [if_pos h]
    simp
  · rw [if_neg h]
    refine ⟨?_, (selectLoop_nodup frames [] 0 max_files).1,
      selectLoop_sublist frames [] 0 max_files, ?_, ?_⟩
    · have := selectLoop_length frames [] 0 max_files
      simpa using this
    · intro g hg
      exact (selectLoop_first_wins frames [] 0 max_files g hg).2
    · intro hfr
      exact absurd (by simp [hfr] : frames.isEmpty = true) (by simpa using h)

theorem isPrefixChars_map_noBS (pat l : List Char) (hpat : '\\' ∉ pat)
    (h : isPrefixChars pat l = true) :
    isPrefixChars pat (replaceBS l) = true := by
  induction pat generalizing l with
  | nil => simp [isPrefixChars]
  | cons p ps ih =>
    rcases l with _ | ⟨c, cs⟩
    · simp [isPrefixChars] at h
    · simp only [isPrefixChars, Bool.and_eq_true, beq_iff_eq] at h
      obtain ⟨rfl, hrest⟩ := h
      have hp : p ≠ '\\' := fun he => hpat (he ▸ List.mem_cons_self _ _)
      have hps : '\\' ∉ ps := fun he => hpat (List.mem_cons_of_mem _ he)
      simp only [replaceBS, List.map_cons, isPrefixChars, if_neg hp, Bool.and_eq_true,
        beq_iff_eq]
      exact ⟨trivial, by simpa [replaceBS] using ih cs hps hrest⟩

theorem containsSub_map_noBS (pat l : List Char) (hpat : '\\' ∉ pat)
    (h : containsSub pat l = true) :
    containsSub pat (replaceBS l) = true := by
  induction l with
  | nil => simpa [containsSub, replaceBS] using h
  | cons c cs ih =>
    simp only [containsSub, Bool.or_eq_true] at h
    rcases h with h | h
    · have := isPrefixChars_map_noBS pat (c :: cs) hpat h
      simp only [replaceBS, List.map_cons] at this ⊢
      unfold containsSub
      rw [this]
      simp
    · have := ih h
      simp only [replaceBS, List.map_cons] at this ⊢
      unfold containsSub
      rw [this]
      simp

/-- C7: any frame whose raw path contains, case-insensitively, a marker of
the fixed deny-list is excluded by `select`, wherever it occurs and
whatever else matches. -/
theorem C7_deny_list_filtering (frames : List StackFrame) (max_files : Nat) (f : StackFrame)
    (h : ∃ pat ∈ excluded_patterns, containsSub pat.data (lowerChars f.file_path.data) = true) :
    f ∉ get_relevant_files frames max_files := by
  intro hf
  obtain ⟨pat, hmem, hcon⟩ := h
  have hnoBS : '\\' ∉ pat.data := by
    revert hmem
    have : ∀ p ∈ excluded_patterns, '\\' ∉ p.data := by decide
    exact fun hm => this pat hm
  have hrep := containsSub_map_noBS pat.data (lowerChars f.file_path.data) hnoBS hcon
  have hexc : frameExcluded f.file_path = true := by
    unfold frameExcluded
    have : excluded_patterns.any
        (fun p => containsSub p.data (replaceBS (lowerChars f.file_path.data))) = true :=
      List.any_eq_true.mpr ⟨pat, hmem, hrep⟩
    simp [this]
  have hnotexc : frameExcluded f.file_path = false := by
    unfold get_relevant_files at hf
    by_cases hemp : frames.isEmpty
    · rw [if_pos hemp] at hf
      exact absurd hf (List.not_mem_nil f)
    · rw [if_neg hemp] at hf
      exact selectLoop_not_excluded frames [] 0 max_files f hf
  rw [hexc] at hnotexc
  exact absurd hnotexc (by simp)

theorem C7_deny_list_filtering_witness :
    ({ file_path := "src/node_modules/a.js", line_number := some 3,
       raw_line := "src/node_modules/a.js:3" } : StackFrame) ∉
      get_relevant_files
        [{ file_path := "src/node_modules/a.js", line_number := some 3,
           raw_line := "src/node_modules/a.js:3" }] 5 :=
  C7_deny_list_filtering _ 5 _ ⟨"node_modules", by decide, by decide⟩

theorem length_filterMap_eq_length_filter {α β : Type} (l : List α) (f : α → Option β) :
    (l.filterMap f).length = (l.filter (fun a => (f a).isSome)).length := by
  induction l with
  | nil => simp
  | cons a t ih =>
    rcases hfa : f a with _ | b
    · rw [List.filterMap_cons_none hfa]
      simp [List.filter_cons, hfa, ih]
    · rw [List.filterMap_cons_some hfa]
      simp [List.filter_cons, hfa, ih]

/-- Any `filterMap` can be presented as selection along a strictly
increasing list of indices: this is the formal sense in which the output
preserves the input order. -/
theorem filterMap_increasing_ixs {α β : Type} (l : List α) (f : α → Option β) :
    ∃ ixs : List Nat, List.Chain' (fun a b => a < b) ixs ∧
      l.filterMap f = ixs.filterMap (fun i => l[i]? >>= f) := by
  induction l with
  | nil => exact ⟨[], by simp, by simp⟩
  | cons a t ih =>
    obtain ⟨ixs, hch, heq⟩ := ih
    have hshift : (ixs.map (fun i => i + 1)).filterMap (fun i => (a :: t)[i]? >>= f) =
        ixs.filterMap (fun i => t[i]? >>= f) := by
      rw [List.filterMap_map]
      have hfun : ((fun i => (a :: t)[i]? >>= f) ∘ fun i => i + 1) =
          (fun i => t[i]? >>= f) := by
        funext i
        simp
      rw [hfun]
    have hchShift : List.Chain' (fun x y => x < y) (ixs.map (fun i => i + 1)) := by
      rw [List.chain'_map]
      exact hch.imp (fun a b h => Nat.succ_lt_succ h)
    rcases hfa : f a with _ | b
    · refine ⟨ixs.map (fun i => i + 1), hchShift, ?_⟩
      rw [List.filterMap_cons_none hfa, hshift, heq]
    · refine ⟨0 :: ixs.map (fun i => i + 1), ?_, ?_⟩
      · rw [List.chain'_cons']
        refine ⟨?_, hchShift⟩
        intro y hy
        rcases ixs with _ | ⟨i, rest⟩
        · simp at hy
        · simp only [List.map_cons, List.head?_cons, Option.mem_def, Option.some.injEq] at hy
          omega
      · rw [List.filterMap_cons_some hfa]
        have hhead : (0 :: ixs.map (fun i => i + 1)).filterMap (fun i => (a :: t)[i]? >>= f) =
            b :: (ixs.map (fun i => i + 1)).filterMap (fun i => (a :: t)[i]? >>= f) := by
          rw [List.filterMap_cons]
          simp [hfa]
        rw [hhead, hshift, heq]

theorem parse_line_has_line_number (l : List Char) (fr : StackFrame)
    (h : parse_line l = some fr) : fr.line_number.isSome := by
  unfold parse_line at h
  repeat' split at h
  all_goals first
    | (cases h; rfl)
    | simp at h

theorem lineToFrame_has_line_number (l : List Char) (fr : StackFrame)
    (h : lineToFrame l = some fr) : fr.line_number.isSome := by
  simp only [lineToFrame] at h
  split at h
  · exact absurd h (by simp)
  · exact parse_line_has_line_number _ fr h

/-- C8 counterexample: the digit groups of the format patterns accept `0`,
so a syntactically valid Node-format line can carry line number 0; the
claim that every returned frame has a positive line number fails. -/
theorem C8_counterexample :
    parse_stack_trace "at foo (a.js:0:1)" =
      [{ file_path := "a.js", line_number := some 0, function_name := none,
         raw_line := "at foo (a.js:0:1)" }] ∧
    ∃ fr ∈ parse_stack_trace "at foo (a.js:0:1)", fr.line_number = some 0 := by
  constructor
  · rfl
  · exact ⟨_, by rw [(by rfl : parse_stack_trace "at foo (a.js:0:1)" =
      [{ file_path := "a.js", line_number := some 0, function_name := none,
         raw_line := "at foo (a.js:0:1)" }])]; exact List.mem_singleton.mpr rfl, rfl⟩

/-- C8 (amended): for every trace, `parse` returns at most as many frames
as there are syntactically valid frame lines, in the same top-to-bottom
order as the input lines (the output is a selection along strictly
increasing line indices), every returned frame carries a line number
(which is a natural number, hence nonnegative, but can be 0, so the
claimed strict positivity fails), lines matching no format are dropped
silently, and the empty trace yields no frames. -/
theorem C8_parse_structure (trace : String) :
    (parse_stack_trace trace).length ≤
      ((splitOnChar '\n' trace.data).filter (fun l => (lineToFrame l).isSome)).length ∧
    (∃ ixs : List Nat, List.Chain' (fun a b => a < b) ixs ∧
      parse_stack_trace trace =
        ixs.filterMap (fun i => (splitOnChar '\n' trace.data)[i]? >>= lineToFrame)) ∧
    (∀ fr ∈ parse_stack_trace trace, fr.line_number.isSome) ∧
    parse_stack_trace "" = [] := by
  by_cases htr : trace = ""
  · subst htr
    exact ⟨by simp [parse_stack_trace], ⟨[], by simp, by simp [parse_stack_trace]⟩,
      by simp [parse_stack_trace], rfl⟩
  · have hps : parse_stack_trace trace = (splitOnChar '\n' trace.data).filterMap lineToFrame := by
      simp [parse_stack_trace, htr]
    refine ⟨?_, ?_, ?_, by simp [parse_stack_trace]⟩
    · rw [hps, length_filterMap_eq_length_filter]
    · rw [hps]
      exact filterMap_increasing_ixs _ _
    · rw [hps]
      intro fr hfr
      rcases List.mem_filterMap.mp hfr with ⟨l, _, hflf⟩
      exact lineToFrame_has_line_number l fr hflf

theorem fetchLoop_spec (outs : List FrameOutcome) (idx0 : Nat) (acc0 : List CodeBlock)
    (elapsed : Nat → Int) :
    ∃ k, k ≤ outs.length ∧
      fetchLoop outs idx0 acc0 elapsed = acc0 ++ (outs.take k).filterMap okBlock ∧
      (k < outs.length →
        elapsed (idx0 + k) ≥ GIT_FETCH_TOTAL_TIMEOUT ∨
        (idx0 + k ≥ MIN_FILES_FOR_CONTEXT ∧
          (acc0 ++ (outs.take k).filterMap okBlock).length ≥ MIN_FILES_FOR_CONTEXT)) := by
  induction outs generalizing idx0 acc0 with
  | nil =>
    refine ⟨0, le_refl 0, by simp [fetchLoop], ?_⟩
    intro hk
    exact absurd hk (by simp)
  | cons o rest ih =>
    by_cases hto : elapsed idx0 ≥ GIT_FETCH_TOTAL_TIMEOUT
    · refine ⟨0, Nat.zero_le _, ?_, ?_⟩
      · show fetchLoop (o :: rest) idx0 acc0 elapsed = _
        unfold fetchLoop
        rw [if_pos hto]
        simp
      · intro _
        left
        simpa using hto
    · by_cases hee : idx0 ≥ MIN_FILES_FOR_CONTEXT ∧ acc0.length ≥ MIN_FILES_FOR_CONTEXT
      · refine ⟨0, Nat.zero_le _, ?_, ?_⟩
        · show fetchLoop (o :: rest) idx0 acc0 elapsed = _
          unfold fetchLoop
          rw [if_neg hto, if_pos hee]
          simp
        · intro _
          right
          simpa using hee
      · cases o with
        | ok b =>
          have hred : fetchLoop (FrameOutcome.ok b :: rest) idx0 acc0 elapsed =
              fetchLoop rest (idx0 + 1) (acc0 ++ [b]) elapsed := by
            conv_lhs => unfold fetchLoop
            rw [if_neg hto, if_neg hee]
          obtain ⟨k, hk, heq, hstop⟩ := ih (idx0 + 1) (acc0 ++ [b])
          refine ⟨k + 1, by simpa using Nat.succ_le_succ hk, ?_, ?_⟩
          · rw [hred, heq]
            simp [okBlock]
          · intro hlt
            have hlt2 : k < rest.length := by simpa using hlt
            rcases hstop hlt2 with hs | hs
            · left
              have hidx : idx0 + 1 + k = idx0 + (k + 1) := by omega
              rwa [hidx] at hs
            · right
              refine ⟨by omega, ?_⟩
              have hs2 := hs.2
              have hlen : (acc0 ++ ((FrameOutcome.ok b :: rest).take (k + 1)).filterMap
                  okBlock).length =
                  (acc0 ++ [b] ++ (rest.take k).filterMap okBlock).length := by
                simp [okBlock]
              omega
        | notFound =>
          have hred : fetchLoop (FrameOutcome.notFound :: rest) idx0 acc0 elapsed =
              fetchLoop rest (idx0 + 1) acc0 elapsed := by
            conv_lhs => unfold fetchLoop
            rw [if_neg hto, if_neg hee]
          obtain ⟨k, hk, heq, hstop⟩ := ih (idx0 + 1) acc0
          refine ⟨k + 1, by simpa using Nat.succ_le_succ hk, ?_, ?_⟩
          · rw [hred, heq]
            simp [okBlock]
          · intro hlt
            have hlt2 : k < rest.length := by simpa using hlt
            rcases hstop hlt2 with hs | hs
            · left
              have hidx : idx0 + 1 + k = idx0 + (k + 1) := by omega
              rwa [hidx] at hs
            · right
              refine ⟨by omega, ?_⟩
              have hs2 := hs.2
              have hlen : (acc0 ++ ((FrameOutcome.notFound :: rest).take (k + 1)).filterMap
                  okBlock).length =
                  (acc0 ++ (rest.take k).filterMap okBlock).length := by
                simp [okBlock]
              omega
        | raised =>
          have hred : fetchLoop (FrameOutcome.raised :: rest) idx0 acc0 elapsed =
              fetchLoop rest (idx0 + 1) acc0 elapsed := by
            conv_lhs => unfold fetchLoop
            rw [if_neg hto, if_neg hee]
          obtain ⟨k, hk, heq, hstop⟩ := ih (idx0 + 1) acc0
          refine ⟨k + 1, by simpa using Nat.succ_le_succ hk, ?_, ?_⟩
          · rw [hred, heq]
            simp [okBlock]
          · intro hlt
            have hlt2 : k < rest.length := by simpa using hlt
            rcases hstop hlt2 with hs | hs
            · left
              have hidx : idx0 + 1 + k = idx0 + (k + 1) := by omega
              rwa [hidx] at hs
            · right
              refine ⟨by omega, ?_⟩
              have hs2 := hs.2
              have hlen : (acc0 ++ ((FrameOutcome.raised :: rest).take (k + 1)).filterMap
                  okBlock).length =
                  (acc0 ++ (rest.take k).filterMap okBlock).length := by
                simp [okBlock]
              omega

/-- C9: a failed frame never aborts the loop.  For every sequence of
per-frame outcomes (successes, clean not-found results — which include
per-request timeouts — and caught exceptions) and every observed clock, the
loop processes a prefix of the frames and returns exactly the blocks of the
successful fetches of that prefix, in frame order; the prefix is the whole
list unless the global budget or the early-exit rule stopped it — a
not-found or raising frame is never a stopping reason, so each remaining
frame is still attempted. -/
theorem C9_per_file_isolation (outs : List FrameOutcome) (elapsed : Nat → Int) :
    ∃ k, k ≤ outs.length ∧
      fetchLoop outs 0 [] elapsed = (outs.take k).filterMap okBlock ∧
      (k < outs.length →
        elapsed k ≥ GIT_FETCH_TOTAL_TIMEOUT ∨
        (k ≥ MIN_FILES_FOR_CONTEXT ∧
          ((outs.take k).filterMap okBlock).length ≥ MIN_FILES_FOR_CONTEXT)) := by
  obtain ⟨k, hk, heq, hstop⟩ := fetchLoop_spec outs 0 [] elapsed
  refine ⟨k, hk, by simpa using heq, ?_⟩
  intro hlt
  rcases hstop hlt with hs | hs
  · left
    simpa using hs
  · right
    constructor
    · omega
    · simpa using hs.2

theorem limitAuxRef_preserves (refs : List Nat) (total maxT : Nat) (store : List CodeBlock) :
    ∀ j, j < store.length → ((limitAuxRef refs total maxT store).1)[j]? = store[j]? := by
  induction refs generalizing total store with
  | nil => intro j _; rfl
  | cons r rest ih =>
    intro j hj
    unfold limitAuxRef
    by_cases hfit : total + countLines (heapRead store r).content ≤ maxT
    · rw [if_pos hfit]
      exact ih (total + countLines (heapRead store r).content) store j hj
    · rw [if_neg hfit]
      by_cases hrem : maxT - total > 10
      · rw [if_pos hrem]
        simp only [heapAlloc, heapWrite]
        have hne : j ≠ store.length := by omega
        rw [List.getElem?_set_ne (by simpa using hne.symm), List.getElem?_set_ne
          (by simpa using hne.symm), List.getElem?_append, if_pos hj]
      · rw [if_neg hrem]

/-- C10: `build` (through `_limit_code_context`) never mutates the caller's
block dicts: after the loop runs, every cell of the original store reads
exactly as before, because the only mutated dict is the fresh copy made in
the truncation branch.  (The returned list is likewise a new list, not the
caller's.) -/
theorem C10_no_caller_mutation (refs : List Nat) (max_total_lines : Nat)
    (store : List CodeBlock) :
    ∀ j, j < store.length →
      ((limit_code_context_ref refs max_total_lines store).1)[j]? = store[j]? := by
  intro j hj
  exact limitAuxRef_preserves refs 0 max_total_lines store j hj

theorem C10_no_caller_mutation_witness :
    ((limit_code_context_ref [0] 15
        [{ file_path := "a.js",
           content := "1\n2\n3\n4\n5\n6\n7\n8\n9\n10\n11\n12\n13\n14\n15\n16\n17\n18\n19\n20",
           start_line := 1, end_line := 20 }] ).1)[0]? =
      [{ file_path := "a.js",
         content := "1\n2\n3\n4\n5\n6\n7\n8\n9\n10\n11\n12\n13\n14\n15\n16\n17\n18\n19\n20",
         start_line := 1, end_line := 20 : CodeBlock }][0]? :=
  C10_no_caller_mutation [0] 15 _ 0 (by decide)

/-- C5 counterexample: normalization is not idempotent.  A second pass
strips a build-artifact prefix the first pass only uncovered:
`build/dist/x.js` normalizes to `dist/x.js`, which normalizes further to
`x.js`. -/
theorem C5_counterexample :
    normalize_path "build/dist/x.js" none = "dist/x.js" ∧
    normalize_path (normalize_path "build/dist/x.js" none) none = "x.js" ∧
    normalize_path (normalize_path "build/dist/x.js" none) none ≠
      normalize_path "build/dist/x.js" none := by
  refine ⟨by decide, by decide, by decide⟩

theorem simpleChar_props (c : Char) (h : simpleChar c = true) :
    c ≠ '/' ∧ c ≠ '\\' ∧ c ≠ '\n' ∧ c.isWhitespace = false := by
  refine ⟨?_, ?_, ?_, ?_⟩
  · intro he; subst he; exact absurd h (by decide)
  · intro he; subst he; exact absurd h (by decide)
  · intro he; subst he; exact absurd h (by decide)
  · rcases hw : c.isWhitespace with _ | _
    · rfl
    · have hcases : ((c = ' ' ∨ c = '\t') ∨ c = '\r') ∨ c = '\n' := by
        simpa [Char.isWhitespace] using hw
      rcases hcases with ((rfl | rfl) | rfl) | rfl <;> exact absurd h (by decide)

theorem pyStrip_of_no_ws (l : List Char) (h : ∀ c ∈ l, c.isWhitespace = false) :
    pyStrip l = l := by
  unfold pyStrip
  have h1 : l.dropWhile Char.isWhitespace = l := by
    rcases l with _ | ⟨c, rest⟩
    · rfl
    · rw [List.dropWhile_cons_of_neg]
      simp [h c (List.mem_cons_self _ _)]
  rw [h1]
  have h2 : l.reverse.dropWhile Char.isWhitespace = l.reverse := by
    rcases hrev : l.reverse with _ | ⟨c, rest⟩
    · rfl
    · rw [List.dropWhile_cons_of_neg]
      have hc : c ∈ l := by
        rw [← List.mem_reverse, hrev]
        exact List.mem_cons_self _ _
      simp [h c hc]
  rw [h2, List.reverse_reverse]

theorem replaceBS_of_no_bs (l : List Char) (h : ∀ c ∈ l, c ≠ '\\') :
    replaceBS l = l := by
  induction l with
  | nil => rfl
  | cons c rest ih =>
    unfold replaceBS
    rw [List.map_cons, if_neg (h c (List.mem_cons_self _ _))]
    have := ih (fun x hx => h x (List.mem_cons_of_mem _ hx))
    unfold replaceBS at this
    rw [this]

theorem splitOnChar_of_no_sep (sep : Char) (l : List Char) (h : ∀ c ∈ l, c ≠ sep) :
    splitOnChar sep l = [l] := by
  induction l with
  | nil => rfl
  | cons c rest ih =>
    unfold splitOnChar
    rw [if_neg (h c (List.mem_cons_self _ _))]
    rw [ih (fun x hx => h x (List.mem_cons_of_mem _ hx))]

theorem splitOnChar_src (f : List Char) (h : ∀ c ∈ f, c ≠ '/') :
    splitOnChar '/' ('s' :: 'r' :: 'c' :: '/' :: f) = [['s', 'r', 'c'], f] := by
  have hf : splitOnChar '/' f = [f] := splitOnChar_of_no_sep '/' f h
  show splitOnChar '/' ('s' :: ('r' :: 'c' :: '/' :: f)) = _
  unfold splitOnChar
  rw [if_neg (by decide)]
  unfold splitOnChar
  rw [if_neg (by decide)]
  unfold splitOnChar
  rw [if_neg (by decide)]
  unfold splitOnChar
  rw [if_pos rfl, hf]

theorem isSepAt_src_false (f : List Char) (hall : ∀ c ∈ f, simpleChar c = true)
    (k : Nat) (hk : k ≠ 3) : isSepAt ('s' :: 'r' :: 'c' :: '/' :: f) k = false := by
  have hsep : ∀ c ∈ f, isSepChar c = false := by
    intro c hc
    obtain ⟨h1, h2, _, _⟩ := simpleChar_props c (hall c hc)
    simp [isSepChar, h1, h2]
  rcases k with _ | k
  · rfl
  rcases k with _ | k
  · rfl
  rcases k with _ | k
  · rfl
  rcases k with _ | k
  · exact absurd rfl hk
  have hidx : ('s' :: 'r' :: 'c' :: '/' :: f)[k + 4]? = f[k]? := by
    simp
  unfold isSepAt
  rw [hidx]
  rcases hf : f[k]? with _ | c
  · rfl
  · exact hsep c (List.getElem?_mem hf)

theorem nmCandAt_src_false (f : List Char) (hall : ∀ c ∈ f, simpleChar c = true)
    (j : Nat) : nmCandAt ('s' :: 'r' :: 'c' :: '/' :: f) j = false := by
  by_cases hj : j = 3
  · subst hj
    have h16 : isSepAt ('s' :: 'r' :: 'c' :: '/' :: f) (3 + 13) = false :=
      isSepAt_src_false f hall 16 (by decide)
    simp [nmCandAt, h16]
  · have hjf : isSepAt ('s' :: 'r' :: 'c' :: '/' :: f) j = false :=
      isSepAt_src_false f hall j hj
    simp [nmCandAt, hjf]

theorem nmLastCand_src (f : List Char) (hall : ∀ c ∈ f, simpleChar c = true) :
    nmLastCand ('s' :: 'r' :: 'c' :: '/' :: f) = none := by
  unfold nmLastCand
  have hfil : (List.range ('s' :: 'r' :: 'c' :: '/' :: f).length).filter
      (fun j => nmCandAt ('s' :: 'r' :: 'c' :: '/' :: f) j) = [] := by
    apply List.filter_eq_nil_iff.mpr
    intro j _
    simp [nmCandAt_src_false f hall j]
  rw [hfil]
  rfl

theorem remove_excluded_dirs_src (f : List Char) (hall : ∀ c ∈ f, simpleChar c = true) :
    remove_excluded_dirs ('s' :: 'r' :: 'c' :: '/' :: f) = 's' :: 'r' :: 'c' :: '/' :: f := by
  unfold remove_excluded_dirs
  rw [nmLastCand_src f hall]
  rfl

theorem remove_project_prefixes_src (f : List Char) (hns : ∀ c ∈ f, c ≠ '/')
    (hnb : ∀ c ∈ f, c ≠ '\\') :
    remove_project_prefixes ('s' :: 'r' :: 'c' :: '/' :: f) none =
      's' :: 'r' :: 'c' :: '/' :: f := by
  have hbs : replaceBS ('s' :: 'r' :: 'c' :: '/' :: f) = 's' :: 'r' :: 'c' :: '/' :: f := by
    apply replaceBS_of_no_bs
    intro c hc
    simp only [List.mem_cons] at hc
    rcases hc with rfl | rfl | rfl | rfl | hc
    · decide
    · decide
    · decide
    · decide
    · exact hnb c hc
  simp only [remove_project_prefixes]
  rw [hbs, splitOnChar_src f hns]
  rfl

theorem normalizePathChars_src (f : List Char) (hall : ∀ c ∈ f, simpleChar c = true) :
    normalizePathChars ('s' :: 'r' :: 'c' :: '/' :: f) none =
      's' :: 'r' :: 'c' :: '/' :: f := by
  have hns : ∀ c ∈ f, c ≠ '/' := fun c hc => (simpleChar_props c (hall c hc)).1
  have hnb : ∀ c ∈ f, c ≠ '\\' := fun c hc => (simpleChar_props c (hall c hc)).2.1
  have hnws : ∀ c ∈ ('s' :: 'r' :: 'c' :: '/' :: f), c.isWhitespace = false := by
    intro c hc
    simp only [List.mem_cons] at hc
    rcases hc with rfl | rfl | rfl | rfl | hc
    · decide
    · decide
    · decide
    · decide
    · exact (simpleChar_props c (hall c hc)).2.2.2
  have h0 : pyStrip ('s' :: 'r' :: 'c' :: '/' :: f) = 's' :: 'r' :: 'c' :: '/' :: f :=
    pyStrip_of_no_ws _ hnws
  have h1 : remove_absolute_prefixes ('s' :: 'r' :: 'c' :: '/' :: f) =
      's' :: 'r' :: 'c' :: '/' :: f := rfl
  have h2 : remove_build_artifacts ('s' :: 'r' :: 'c' :: '/' :: f) =
      's' :: 'r' :: 'c' :: '/' :: f := rfl
  have h3 := remove_project_prefixes_src f hns hnb
  have h4 : replaceBS ('s' :: 'r' :: 'c' :: '/' :: f) = 's' :: 'r' :: 'c' :: '/' :: f := by
    apply replaceBS_of_no_bs
    intro c hc
    simp only [List.mem_cons] at hc
    rcases hc with rfl | rfl | rfl | rfl | hc
    · decide
    · decide
    · decide
    · decide
    · exact hnb c hc
  have h5 : ('s' :: 'r' :: 'c' :: '/' :: f).dropWhile (fun c => c == '/') =
      's' :: 'r' :: 'c' :: '/' :: f := rfl
  have h6 := remove_excluded_dirs_src f hall
  show remove_excluded_dirs ((replaceBS (remove_project_prefixes (remove_build_artifacts
      (remove_absolute_prefixes (pyStrip ('s' :: 'r' :: 'c' :: '/' :: f)))) none)).dropWhile
      (fun c => c == '/')) = 's' :: 'r' :: 'c' :: '/' :: f
  rw [h0, h1, h2, h3, h4, h5, h6]

/-- C5 (amended): `normalize` is not idempotent on arbitrary paths (see the
counterexample: a second pass can strip further); it is idempotent on
already-normalized relative paths of the shape `src/<name>` with `<name>` a
nonempty slash-free alphanumeric-or-dot file name: such paths are fixed
points of `normalize`, so re-normalizing them changes nothing. -/
theorem C5_normalize_idempotent_on_normal_forms (s : String) (h : SimpleNormalized s) :
    normalize_path s none = s ∧
    normalize_path (normalize_path s none) none = normalize_path s none := by
  obtain ⟨f, hdata, _, hall⟩ := h
  have hfix : normalize_path s none = s := by
    rcases s with ⟨l⟩
    have hl : l = 's' :: 'r' :: 'c' :: '/' :: f := hdata
    subst hl
    show String.mk (normalizePathChars ('s' :: 'r' :: 'c' :: '/' :: f) none) = _
    rw [normalizePathChars_src f hall]
  exact ⟨hfix, by rw [hfix, hfix]⟩

theorem C5_normalize_idempotent_witness :
    normalize_path "src/app.js" none = "src/app.js" ∧
    normalize_path (normalize_path "src/app.js" none) none =
      normalize_path "src/app.js" none :=
  C5_normalize_idempotent_on_normal_forms "src/app.js"
    ⟨['a', 'p', 'p', '.', 'j', 's'], rfl, by decide, by decide⟩

end DebugAI
